import Mathlib

/-!
Verification of the retrieval-and-context-assembly pipeline of the
coastal_seven assignment repository.

The Python sources embedded here:
* `src/query_engine.py` — `_get_relevant_chunks` (keyword ranker),
  `_prepare_context` (context assembler), `query` (pipeline with error
  classification);
* `src/processors/text_processor.py` — `_split_text` (text segmenter).

Strings are modelled as `String` / `List Char` (Python `str` indexes by code
point, which `List Char` matches).  Lower-casing is modelled character-wise
with `Char.toLower`, the shallow model of Python `str.lower` (they agree on
ASCII, which is all this repository produces).
-/

namespace CoastalRag

/-! ### Python string primitives -/

/-- Python whitespace for `str.split()` / `str.strip()` / `\s` (ASCII part). -/
def pyIsSpace (c : Char) : Bool :=
  c == ' ' || c == '\t' || c == '\n' || c == '\r' || c == '\x0b' || c == '\x0c'

/-- Character-wise lower-casing of a character list (model of `str.lower()`). -/
def lowerL (l : List Char) : List Char := l.map Char.toLower

/-- Character-wise lower-casing of a string (model of `str.lower()`). -/
def lowerStr (s : String) : String := ⟨lowerL s.data⟩

/-- Test that `needle` is a prefix of `hay` (helper for the substring test). -/
def isPrefL : List Char → List Char → Bool
  | [], _ => true
  | _ :: _, [] => false
  | a :: as, b :: bs => a == b && isPrefL as bs

/-- Python `needle in hay` on strings: contiguous-substring test. -/
def isSubL (needle : List Char) : List Char → Bool
  | [] => needle.isEmpty
  | c :: rest => isPrefL needle (c :: rest) || isSubL needle rest

/-- Python `sub in s` on `String`s. -/
def containsSubStr (s sub : String) : Bool := isSubL sub.data s.data

/-- Statement that `w` occurs as a contiguous substring of `t` (the mathematical statement
that the executable test `isSubL` decides). -/
def SubstringOf (w t : List Char) : Prop := ∃ pre post, pre ++ w ++ post = t

/-- Accumulator worker for `pySplit`; `acc` holds the current word reversed. -/
def pySplitAux : List Char → List Char → List (List Char)
  | acc, [] => if acc.isEmpty then [] else [acc.reverse]
  | acc, c :: rest =>
    if pyIsSpace c then
      if acc.isEmpty then pySplitAux [] rest else acc.reverse :: pySplitAux [] rest
    else pySplitAux (c :: acc) rest

/-- Python `str.split()` with no argument: split on whitespace runs,
discarding empty words. -/
def pySplit (t : List Char) : List (List Char) := pySplitAux [] t

/-- Worker for `collapseWS`: `prevSpace` records whether the previous
character was whitespace (so a run collapses to one `' '`). -/
def collapseWSAux : Bool → List Char → List Char
  | _, [] => []
  | prevSpace, c :: rest =>
    if pyIsSpace c then
      if prevSpace then collapseWSAux true rest else ' ' :: collapseWSAux true rest
    else c :: collapseWSAux false rest

/-- Model of `re.sub` with pattern backslash-s-plus: every whitespace run becomes one space. -/
def collapseWS (t : List Char) : List Char := collapseWSAux false t

/-- Python `str.strip()`: drop whitespace from both ends. -/
def pyStrip (t : List Char) : List Char :=
  ((t.dropWhile pyIsSpace).reverse.dropWhile pyIsSpace).reverse

/-- The cleaning step of `_split_text`: collapse whitespace runs, then strip. -/
def cleanText (t : List Char) : List Char := pyStrip (collapseWS t)

/-- Python slice `t[s:e]` (clipped at both ends, empty when `e ≤ s`). -/
def slice (t : List Char) (s e : Nat) : List Char := (t.drop s).take (e - s)

/-! ### Content model

A stored chunk's `content` is polymorphic: a plain string, a JSON-encoded
string, or a structured record (Python `dict`).  `PyVal` models the Python
value a consumer sees after the decode step; `RawContent` models the stored
value together with the behaviour of `json.loads` on it (an external
library, modelled as an oracle carried by the input: `parsed = none` means
`json.loads` raises, `parsed = some v` means it returns `v`). -/

inductive PyVal where
  /-- a Python `str` -/
  | vstr (s : String)
  /-- a Python `dict` with string keys -/
  | vdict (fields : List (String × PyVal))
  /-- any other Python value; `repr` is its `str(...)` rendering -/
  | vother (repr : String)

inductive RawContent where
  /-- a stored string, with the outcome of `json.loads` on it -/
  | rstr (s : String) (parsed : Option PyVal)
  /-- a stored non-string value (passed through unchanged) -/
  | rval (v : PyVal)

/-- Lines 71–75 of `query_engine.py`: if the content is a string, try
`json.loads`; on failure keep the string. -/
def decodeContent : RawContent → PyVal
  | .rstr s parsed => parsed.getD (.vstr s)
  | .rval v => v

/-- Lookup of a key in a Python dict model. -/
def dictFind (d : List (String × PyVal)) (k : String) : Option PyVal :=
  (d.find? (fun kv => kv.1 == k)).map (fun kv => kv.2)

/-- Model of `content.get("ocr_text", "")` as a string.  The records stored by this
repository (`image_processor.py`) always hold a string under `ocr_text`, so
a non-string value (on which Python would fail later at `.lower()`) is
mapped to the default `""` as well. -/
def ocrStringOf (d : List (String × PyVal)) : String :=
  match dictFind d "ocr_text" with
  | some (.vstr s) => s
  | some _ => ""
  | none => ""

/-- Python `str(v)` for the values that reach the non-dict branch. -/
def pyStr : PyVal → String
  | .vstr s => s
  | .vdict _ => ""
  | .vother r => r

/-- A stored chunk row as the query engine sees it: `chunk.get("filename",
"Unknown")` and `chunk.get("content", "")`; `none` models an absent key
(the default empty-string content is a string on which `json.loads` raises). -/
structure Chunk where
  filename : Option String
  content : Option RawContent

/-- Model of `chunk.get("content", "")`. -/
def contentOf (c : Chunk) : RawContent := c.content.getD (.rstr "" none)

/-- Lines 77–82 of `query_engine.py` (inside `_get_relevant_chunks`), before
lower-casing: for a dict use `content.get("ocr_text","")`, otherwise
`str(content)`. -/
def rawTextForScoring : PyVal → String
  | .vdict d => ocrStringOf d
  | .vstr s => s
  | .vother r => r

/-- The `content_text` of `_get_relevant_chunks`: the extracted text of a chunk,
lower-cased, as a character list. -/
def contentTextOf (c : Chunk) : List Char :=
  lowerL (rawTextForScoring (decodeContent (contentOf c))).data

/-- The fixed placeholder of `_prepare_context` for image content. -/
def imagePlaceholder : String := "[Image content - visual information available]"

/-- Lines 108–114 of `query_engine.py` (inside `_prepare_context`): for a
dict use `content.get("ocr_text","")` and fall back to the placeholder when
that is falsy (empty); otherwise `str(content)`. -/
def ctxText : PyVal → String
  | .vdict d => if ocrStringOf d = "" then imagePlaceholder else ocrStringOf d
  | .vstr s => s
  | .vother r => r

/-- The `content_text` of `_prepare_context` for a chunk row. -/
def ctxTextOf (c : Chunk) : String := ctxText (decodeContent (contentOf c))

/-- The spec's `canonical_text` (§4.2), written from the spec's words, for
comparison with the code: a structured record with an OCR-text field yields
that field (possibly empty); a structured record lacking it yields the fixed
placeholder; a string that does not parse is returned unchanged (the string
that parses is handled through `decodeContent`); for any other value the
spec is silent and we keep its `str` rendering. -/
def specCanonicalText : PyVal → String
  | .vdict d =>
    match dictFind d "ocr_text" with
    | some (.vstr s) => s
    | some _ => ""
    | none => imagePlaceholder
  | .vstr s => s
  | .vother r => r

/-! ### Relevance ranker (`_get_relevant_chunks`) -/

/-- Lines 63–64: `query_words = set(query.lower().split())`.  The Python
set is modelled by `dedup` (scores below only count each distinct word once,
which is all the set is used for). -/
def queryWords (q : String) : List (List Char) := (pySplit (lowerL q.data)).dedup

/-- Line 85: `score = sum(1 for word in query_words if word in content_text)`. -/
def scoreChunk (qwords : List (List Char)) (c : Chunk) : Nat :=
  qwords.countP (fun w => isSubL w (contentTextOf c))

/-- Lines 66–87: the `scored_chunks` list — every chunk of the store paired
with its score, keeping only positive scores, in enumeration order. -/
def posScored (q : String) (allChunks : List Chunk) : List (Nat × Chunk) :=
  allChunks.filterMap (fun c =>
    if 0 < scoreChunk (queryWords q) c then some (scoreChunk (queryWords q) c, c) else none)

/-- Stable insertion of a scored chunk into a score-descending list: skip
while the head's score is strictly greater, so an element inserted from the
left ends up before every equal-score element that followed it. -/
def insertDesc (p : Nat × Chunk) : List (Nat × Chunk) → List (Nat × Chunk)
  | [] => [p]
  | q :: qs => if p.1 < q.1 then q :: insertDesc p qs else p :: q :: qs

/-- Model of line 90, `scored_chunks.sort(key=lambda x: x[0], reverse=True)`:
CPython's sort is stable, and with `reverse=True` equal keys still keep
their original order, i.e. it computes exactly the stable descending sort —
which this insertion sort implements. -/
def sortDesc : List (Nat × Chunk) → List (Nat × Chunk)
  | [] => []
  | p :: ps => insertDesc p (sortDesc ps)

/-- Model of `_get_relevant_chunks(query, limit)` over a chunk store `allChunks`:
score, keep positive, stable-sort descending, truncate, drop the scores. -/
def getRelevantChunks (q : String) (allChunks : List Chunk) (limit : Nat) :
    List Chunk :=
  ((sortDesc (posScored q allChunks)).take limit).map Prod.snd

/-- The spec's relevance score (§4.3, glossary): the number of elements of
the *set* of distinct lower-cased query words that occur as a substring of
the chunk's lower-cased extracted text. -/
def specScore (q : String) (c : Chunk) : Nat :=
  ((pySplit (lowerL q.data)).toFinset.filter
    (fun w => isSubL w (contentTextOf c) = true)).card

/-! ### Context assembler (`_prepare_context`) -/

/-- The `context_parts` list built by the loop of `_prepare_context`:
`f"Document: {filename}\nContent:\n{content_text}\n"` per chunk, in order. -/
def prepareContextParts : List Chunk → List String
  | [] => []
  | c :: rest =>
    ("Document: " ++ c.filename.getD "Unknown" ++ "\nContent:\n" ++ ctxTextOf c ++ "\n")
      :: prepareContextParts rest

/-- Model of `_prepare_context(chunks)`: join the parts with the separator. -/
def prepareContext (chunks : List Chunk) : String :=
  String.intercalate "\n---\n" (prepareContextParts chunks)

/-- The per-chunk block as claim C8 states it (spec §4.4): document label,
then the §4.2 canonical text with the placeholder substituted whenever that
canonical text is empty. -/
def specBlock (c : Chunk) : String :=
  let t := specCanonicalText (decodeContent (contentOf c))
  "Document: " ++ c.filename.getD "Unknown" ++ "\nContent:\n" ++
    (if t = "" then imagePlaceholder else t) ++ "\n"

/-! ### Query pipeline (`query`) -/

/-- Line 127: the fixed message returned when retrieval finds nothing. -/
def noInfoMsg : String :=
  "I couldn\x27t find any relevant information in the processed files. Please make sure you have uploaded and processed some files first."

/-- Lines 133–142: the fixed prompt template. -/
def promptOf (context userQuery : String) : String :=
  "You are a helpful assistant that answers questions based on the provided context from various documents.\n\nContext from documents:\n" ++
  context ++ "\n\nUser Question: " ++ userQuery ++
  "\n\nPlease provide a clear, accurate answer based on the context above. If the information is not available in the context, say so. If you need to reference specific documents, mention the document names.\n\nAnswer:"

/-- The shapes a successful backend response may take (lines 148–153). -/
inductive GenResponse where
  /-- a response exposing `.text` -/
  | withText (t : String)
  /-- a response exposing `candidates[0].content.parts[0].text` -/
  | withCandidates (t : String)
  /-- anything else; `s` is `str(response)` -/
  | otherShape (s : String)

/-- Response-shape normalization (lines 148–153). -/
def extractResponse : GenResponse → String
  | .withText t => t
  | .withCandidates t => t
  | .otherShape s => s

/-- Line 157: the model-unavailable message for error text `m`. -/
def modelErrorMsg (m : String) : String :=
  "Model error: The Gemini model is not available. Please check your API key and model configuration. Error: " ++ m

/-- Line 159: the auth/permission message for error text `m`. -/
def apiKeyErrorMsg (m : String) : String :=
  "API key error: Please check your GEMINI_API_KEY in the .env file. Error: " ++ m

/-- Line 161: the generic API-error message for error text `m`. -/
def apiErrorMsg (m : String) : String := "API error: " ++ m

/-- Line 156: `"404" in error_msg or "not found" in error_msg.lower()`. -/
def matches404 (m : String) : Bool :=
  containsSubStr m "404" || containsSubStr (lowerStr m) "not found"

/-- Line 158: `"403" in error_msg or "permission" in error_msg.lower()`. -/
def matches403 (m : String) : Bool :=
  containsSubStr m "403" || containsSubStr (lowerStr m) "permission"

/-- Lines 154–161: classification of a backend failure into a user-facing
message (the `except` branch around `generate_content`). -/
def classifyApiError (m : String) : String :=
  if matches404 m then modelErrorMsg m
  else if matches403 m then apiKeyErrorMsg m
  else apiErrorMsg m

/-- Model of `query(user_query)` (lines 120–161) over a chunk store and a generation
backend.  The backend is a function from the prompt to either a response or
the stringified error of the exception it raised. -/
def queryRun (chunks : List Chunk) (backend : String → Except String GenResponse)
    (userQuery : String) : String :=
  let relevantChunks := getRelevantChunks userQuery chunks 10
  if relevantChunks.isEmpty then noInfoMsg
  else
    let context := prepareContext relevantChunks
    let prompt := promptOf context userQuery
    match backend prompt with
    | .ok r => extractResponse r
    | .error m => classifyApiError m

/-! ### Text segmenter (`_split_text` of `text_processor.py`) -/

/-- The sentence-boundary characters searched for by `_split_text`. -/
def isPunctAt (t : List Char) (i : Nat) : Bool :=
  match t[i]? with
  | some c => c == '.' || c == '!' || c == '?' || c == '\n'
  | none => false

/-- Rightmost boundary character in the window `[s, s+n)`: the model of
`max` of the four `text.rfind(ch, start, end)` calls, with `none` for
`-1` (the maximum of the four rfind results is the greatest index in the
window holding any of the four characters). -/
def rfindWin (t : List Char) (s : Nat) : Nat → Option Nat
  | 0 => none
  | n + 1 => if isPunctAt t (s + n) then some (s + n) else rfindWin t s n

/-- Lines 123–136 of `text_processor.py`: the end of the chunk starting at
`start` — `start + chunkSize`, moved back to one past the rightmost
boundary character when the window is interior (`end < len(text)`) and that
character lies strictly after `start`. -/
def chunkEnd (t : List Char) (chunkSize start : Nat) : Nat :=
  if start + chunkSize < t.length then
    match rfindWin t start chunkSize with
    | some i => if start < i then i + 1 else start + chunkSize
    | none => start + chunkSize
  else start + chunkSize

/-- The `metadata` dict recorded with each emitted chunk. -/
structure ChunkMeta where
  chunkIndex : Nat
  startPos : Nat
  endPos : Nat
  deriving DecidableEq

/-- One element of the list returned by `_split_text`: the chunk content
and, when produced by the main loop, its metadata (the early-return and
fallback chunks carry an empty metadata dict, modelled as `none`). -/
structure ChunkRec where
  content : List Char
  metadata : Option ChunkMeta
  deriving DecidableEq

/-- The `while start < len(text)` loop of `_split_text` (lines 122–151),
on the already-cleaned text: compute the chunk end, strip the slice, emit it
when non-empty, and continue from `max(start+1, end-overlap)`. -/
def splitLoop (t : List Char) (chunkSize overlap : Nat) (start idx : Nat) :
    List ChunkRec :=
  if start < t.length then
    if (pyStrip (slice t start (chunkEnd t chunkSize start))).isEmpty then
      splitLoop t chunkSize overlap
        (max (start + 1) (chunkEnd t chunkSize start - overlap)) idx
    else
      ⟨pyStrip (slice t start (chunkEnd t chunkSize start)),
        some ⟨idx, start, chunkEnd t chunkSize start⟩⟩ ::
      splitLoop t chunkSize overlap
        (max (start + 1) (chunkEnd t chunkSize start - overlap)) (idx + 1)
  else []
termination_by t.length - start
decreasing_by
  all_goals omega

/-- Fuel-indexed variant of `splitLoop`, used to state that the loop
terminates: `none` means the fuel ran out before the loop condition
`start < len(text)` failed. -/
def splitLoopF (t : List Char) (chunkSize overlap : Nat) :
    Nat → Nat → Nat → Option (List ChunkRec)
  | 0, start, _ => if start < t.length then none else some []
  | fuel + 1, start, idx =>
    if start < t.length then
      if (pyStrip (slice t start (chunkEnd t chunkSize start))).isEmpty then
        splitLoopF t chunkSize overlap fuel
          (max (start + 1) (chunkEnd t chunkSize start - overlap)) idx
      else
        (splitLoopF t chunkSize overlap fuel
            (max (start + 1) (chunkEnd t chunkSize start - overlap)) (idx + 1)).map
          (fun rest =>
            ⟨pyStrip (slice t start (chunkEnd t chunkSize start)),
              some ⟨idx, start, chunkEnd t chunkSize start⟩⟩ :: rest)
    else some []

/-- Model of `_split_text(text, chunk_size, overlap)`: empty or whitespace-only input
yields one chunk with empty content and empty metadata; otherwise clean the
text, run the loop, and fall back to one whole-text chunk if the loop
emitted nothing. -/
def splitText (text : List Char) (chunkSize overlap : Nat) : List ChunkRec :=
  if text.all pyIsSpace then [⟨[], none⟩]
  else
    let t := cleanText text
    let cs := splitLoop t chunkSize overlap 0 0
    if cs.isEmpty then [⟨t, none⟩] else cs

/-! ## Theorems -/

/-! ### Basic lemmas about the string primitives -/

theorem pySplitAux_mem_ne_nil :
    ∀ (t acc : List Char) (w : List Char), w ∈ pySplitAux acc t → w ≠ [] := by
  intro t
  induction t with
  | nil =>
    intro acc w hw
    simp only [pySplitAux] at hw
    split at hw
    · simp at hw
    · rename_i hacc
      simp only [List.mem_singleton] at hw
      subst hw
      intro hrev
      exact hacc (by simpa using congrArg List.reverse hrev)
  | cons c rest ih =>
    intro acc w hw
    simp only [pySplitAux] at hw
    split at hw
    · split at hw
      · exact ih [] w hw
      · rename_i hacc
        rcases List.mem_cons.mp hw with h | h
        · subst h
          intro hrev
          exact hacc (by simpa using congrArg List.reverse hrev)
        · exact ih [] w h
    · exact ih (c :: acc) w hw

theorem pySplit_mem_ne_nil (t w : List Char) (hw : w ∈ pySplit t) : w ≠ [] :=
  pySplitAux_mem_ne_nil t [] w hw

theorem isPrefL_iff (w : List Char) :
    ∀ t : List Char, isPrefL w t = true ↔ ∃ post, w ++ post = t := by
  induction w with
  | nil =>
    intro t
    simp [isPrefL]
  | cons a as ih =>
    intro t
    cases t with
    | nil =>
      simp only [isPrefL]
      constructor
      · intro h; cases h
      · rintro ⟨post, h⟩; cases h
    | cons b bs =>
      simp only [isPrefL, Bool.and_eq_true, beq_iff_eq]
      rw [ih bs]
      constructor
      · rintro ⟨rfl, post, rfl⟩
        exact ⟨post, rfl⟩
      · rintro ⟨post, h⟩
        injection h with h1 h2
        exact ⟨h1, post, h2⟩

theorem isSubL_iff (w : List Char) :
    ∀ t : List Char, isSubL w t = true ↔ SubstringOf w t := by
  intro t
  induction t with
  | nil =>
    simp only [isSubL, SubstringOf, List.isEmpty_iff]
    constructor
    · rintro rfl; exact ⟨[], [], rfl⟩
    · rintro ⟨pre, post, h⟩
      rcases List.append_eq_nil.mp h with ⟨h1, h2⟩
      exact (List.append_eq_nil.mp h1).2
  | cons c rest ih =>
    simp only [isSubL, Bool.or_eq_true, isPrefL_iff, ih, SubstringOf]
    constructor
    · rintro (⟨post, h⟩ | ⟨pre, post, h⟩)
      · exact ⟨[], post, by simpa using h⟩
      · exact ⟨c :: pre, post, by simp [h]⟩
    · rintro ⟨pre, post, h⟩
      cases pre with
      | nil => exact Or.inl ⟨post, by simpa using h⟩
      | cons p ps =>
        injection h with h1 h2
        exact Or.inr ⟨ps, post, h2⟩

/-- A non-empty word is never a substring of the empty text. -/
theorem isSubL_nil_of_ne_nil (w : List Char) (hw : w ≠ []) :
    isSubL w [] = false := by
  cases w with
  | nil => exact absurd rfl hw
  | cons a as => simp [isSubL, List.isEmpty]

/-! ### Claim C5: the empty query retrieves nothing -/

theorem queryWords_empty : queryWords "" = [] := rfl

theorem scoreChunk_empty_query (c : Chunk) : scoreChunk (queryWords "") c = 0 := rfl

theorem posScored_empty_query (cs : List Chunk) : posScored "" cs = [] := by
  induction cs with
  | nil => rfl
  | cons c rest ih =>
    simp only [posScored] at ih ⊢
    rw [List.filterMap_cons]
    simp [scoreChunk_empty_query, ih]

/-- Claim C5: for every chunk set (in particular any non-empty one), the
ranker applied to the empty query returns the empty sequence — the empty
query yields an empty word set, so every chunk scores 0 and nothing is
retrieved. -/
theorem rank_empty_query_returns_nothing (cs : List Chunk) (limit : Nat) :
    getRelevantChunks "" cs limit = [] ∧
    queryWords "" = [] ∧
    ∀ c : Chunk, scoreChunk (queryWords "") c = 0 := by
  refine ⟨?_, rfl, fun c => rfl⟩
  simp [getRelevantChunks, posScored_empty_query, sortDesc]

/-! ### Claim C7: empty retrieval yields the fixed message, backend unused -/

/-- Claim C7: whenever retrieval with `limit = 10` finds nothing — in
particular on an empty chunk store — `query` returns the fixed
no-information message for *every* possible generation backend (so the
backend is never consulted), and that message is not the empty string. -/
theorem query_empty_retrieval_message (chunks : List Chunk) (q : String)
    (h : getRelevantChunks q chunks 10 = []) :
    (∀ backend, queryRun chunks backend q = noInfoMsg) ∧
    (∀ backend q2, queryRun ([] : List Chunk) backend q2 = noInfoMsg) ∧
    noInfoMsg ≠ "" := by
  refine ⟨fun backend => ?_, fun backend q2 => ?_, by decide⟩
  · simp [queryRun, h]
  · have hempty : getRelevantChunks q2 ([] : List Chunk) 10 = [] := by
      simp [getRelevantChunks, posScored, sortDesc]
    simp [queryRun, hempty]

theorem query_empty_retrieval_message_witness :
    queryRun ([] : List Chunk) (fun _ => Except.error "boom") "anything" = noInfoMsg ∧
    noInfoMsg ≠ "" := by
  have h := query_empty_retrieval_message ([] : List Chunk) "anything"
    (by simp [getRelevantChunks, posScored, sortDesc])
  exact ⟨h.1 _, h.2.2⟩

/-! ### The stable descending sort -/

theorem insertDesc_perm (p : Nat × Chunk) (l : List (Nat × Chunk)) :
    (insertDesc p l).Perm (p :: l) := by
  induction l with
  | nil => exact List.Perm.refl _
  | cons q qs ih =>
    simp only [insertDesc]
    split
    · exact (ih.cons q).trans (List.Perm.swap p q qs)
    · exact List.Perm.refl _

theorem sortDesc_perm (l : List (Nat × Chunk)) : (sortDesc l).Perm l := by
  induction l with
  | nil => exact List.Perm.refl _
  | cons p ps ih => exact (insertDesc_perm p (sortDesc ps)).trans (ih.cons p)

theorem insertDesc_sorted (p : Nat × Chunk) (l : List (Nat × Chunk))
    (h : l.Pairwise (fun a b => b.1 ≤ a.1)) :
    (insertDesc p l).Pairwise (fun a b => b.1 ≤ a.1) := by
  induction l with
  | nil => simp [insertDesc]
  | cons q qs ih =>
    rcases List.pairwise_cons.mp h with ⟨hq, hqs⟩
    simp only [insertDesc]
    split
    · rename_i hlt
      refine List.pairwise_cons.mpr ⟨?_, ih hqs⟩
      intro x hx
      rcases List.mem_cons.mp ((insertDesc_perm p qs).mem_iff.mp hx) with hx2 | hx2
      · subst hx2; exact Nat.le_of_lt hlt
      · exact hq x hx2
    · rename_i hge
      refine List.pairwise_cons.mpr ⟨?_, h⟩
      intro x hx
      rcases List.mem_cons.mp hx with hx | hx
      · subst hx; exact Nat.le_of_not_lt hge
      · exact Nat.le_trans (hq x hx) (Nat.le_of_not_lt hge)

theorem sortDesc_sorted (l : List (Nat × Chunk)) :
    (sortDesc l).Pairwise (fun a b => b.1 ≤ a.1) := by
  induction l with
  | nil => simp [sortDesc]
  | cons p ps ih => exact insertDesc_sorted p (sortDesc ps) ih

/-- The elements skipped by `insertDesc` have strictly greater score, so
inserting `p` changes the score-`s` sublist only by prepending `p` when
`p` scores `s` — the heart of the stability argument. -/
theorem insertDesc_filter (p : Nat × Chunk) (s : Nat) :
    ∀ l : List (Nat × Chunk),
      (insertDesc p l).filter (fun x => x.1 == s) =
        if p.1 = s then p :: l.filter (fun x => x.1 == s)
        else l.filter (fun x => x.1 == s) := by
  intro l
  induction l with
  | nil =>
    simp only [insertDesc, List.filter_cons, List.filter_nil]
    by_cases hp : p.1 = s <;> simp [hp]
  | cons q qs ih =>
    simp only [insertDesc]
    by_cases hlt : p.1 < q.1
    · rw [if_pos hlt, List.filter_cons, ih]
      by_cases hq : q.1 = s
      · have hp : ¬ p.1 = s := by omega
        simp [hq, hp, List.filter_cons]
      · simp only [List.filter_cons]
        by_cases hp : p.1 = s <;> simp [hq, hp]
    · rw [if_neg hlt]
      by_cases hp : p.1 = s <;> simp [List.filter_cons, hp]

theorem sortDesc_filter (s : Nat) :
    ∀ l : List (Nat × Chunk),
      (sortDesc l).filter (fun x => x.1 == s) = l.filter (fun x => x.1 == s) := by
  intro l
  induction l with
  | nil => rfl
  | cons p ps ih =>
    simp only [sortDesc]
    rw [insertDesc_filter]
    by_cases hp : p.1 = s <;> simp [List.filter_cons, hp, ih]

/-! ### Claim C1: ranked output is the stable descending sort, truncated -/

/-- Claim C1: for every query and chunk list, the ranker's output is the
`limit`-prefix of a list `full` that (i) is a permutation of the
positively-scored chunks in enumeration order, (ii) is sorted by score
descending, and (iii) at every score value agrees with the enumeration
order (stable tie-break, no secondary key); the output length is at most
`limit`.  These properties determine `full` uniquely. -/
theorem rank_sorted_stable_truncated (q : String) (chunks : List Chunk) (limit : Nat) :
    ∃ full : List (Nat × Chunk),
      getRelevantChunks q chunks limit = (full.take limit).map Prod.snd ∧
      full.Perm (posScored q chunks) ∧
      full.Pairwise (fun a b => b.1 ≤ a.1) ∧
      (∀ s : Nat, full.filter (fun x => x.1 == s) =
        (posScored q chunks).filter (fun x => x.1 == s)) ∧
      (getRelevantChunks q chunks limit).length ≤ limit := by
  refine ⟨sortDesc (posScored q chunks), rfl, sortDesc_perm _, sortDesc_sorted _,
    fun s => sortDesc_filter s _, ?_⟩
  simp only [getRelevantChunks, List.length_map, List.length_take]
  exact Nat.min_le_left _ _

/-! ### Scores of retrieved chunks -/

/-- Every chunk the ranker returns has positive score. -/
theorem mem_getRelevantChunks_pos_score (q : String) (cs : List Chunk) (k : Nat)
    (c : Chunk) (hc : c ∈ getRelevantChunks q cs k) :
    0 < scoreChunk (queryWords q) c := by
  simp only [getRelevantChunks, List.mem_map] at hc
  obtain ⟨p, hp, rfl⟩ := hc
  have hp3 : p ∈ posScored q cs :=
    (sortDesc_perm _).mem_iff.mp (List.mem_of_mem_take hp)
  simp only [posScored, List.mem_filterMap] at hp3
  obtain ⟨a, _, hfa⟩ := hp3
  by_cases hs : 0 < scoreChunk (queryWords q) a
  · rw [if_pos hs] at hfa
    injection hfa with h
    subst h
    exact hs
  · rw [if_neg hs] at hfa
    cases hfa

/-! ### Claim C2: the relevance score counts distinct matching query words -/

/-- Claim C2: the score the ranker computes for a chunk equals the number of
elements of the *set* of distinct lower-cased whitespace-split query words
that occur as a substring anywhere in the chunk's lower-cased extracted
text (`isSubL` is exactly substring occurrence, last conjunct), and every
chunk the ranker returns has a positive score (score-0 chunks are
excluded). -/
theorem score_counts_distinct_query_words (q : String) (c : Chunk) :
    scoreChunk (queryWords q) c = specScore q c ∧
    (∀ cs k c2, c2 ∈ getRelevantChunks q cs k → 0 < scoreChunk (queryWords q) c2) ∧
    (∀ w t : List Char, isSubL w t = true ↔ SubstringOf w t) := by
  refine ⟨?_, fun cs k c2 h => mem_getRelevantChunks_pos_score q cs k c2 h, isSubL_iff⟩
  simp only [scoreChunk, queryWords, specScore]
  rw [List.countP_eq_length_filter, Finset.card_def, Finset.filter_val, List.toFinset_val,
    Multiset.filter_coe, Multiset.coe_card]
  simp

theorem score_counts_distinct_query_words_witness :
    scoreChunk (queryWords "hello hello world")
        ⟨some "a.txt", some (.rstr "say hello!" none)⟩ =
      specScore "hello hello world" ⟨some "a.txt", some (.rstr "say hello!" none)⟩ ∧
    0 < scoreChunk (queryWords "hello hello world")
        ⟨some "a.txt", some (.rstr "say hello!" none)⟩ := by
  have h := score_counts_distinct_query_words "hello hello world"
    ⟨some "a.txt", some (.rstr "say hello!" none)⟩
  refine ⟨h.1, h.2.1 [⟨some "a.txt", some (.rstr "say hello!" none)⟩] 10 _ ?_⟩
  have : getRelevantChunks "hello hello world" [⟨some "a.txt", some (.rstr "say hello!" none)⟩] 10 =
      [⟨some "a.txt", some (.rstr "say hello!" none)⟩] := rfl
  rw [this]
  exact List.mem_singleton.mpr rfl

/-! ### Claim C10: OCR-less image chunks are unretrievable -/

/-- Claim C10: a chunk whose stored content decodes to a structured record
whose `ocr_text` field is absent or empty scores 0 against every query
(empty or not) and is never part of the ranker's output. -/
theorem ocrless_image_chunks_unretrievable (q : String) (cs : List Chunk) (k : Nat)
    (c : Chunk) (d : List (String × PyVal))
    (hd : decodeContent (contentOf c) = .vdict d)
    (hocr : dictFind d "ocr_text" = none ∨ dictFind d "ocr_text" = some (.vstr "")) :
    scoreChunk (queryWords q) c = 0 ∧ c ∉ getRelevantChunks q cs k := by
  have hocr0 : ocrStringOf d = "" := by
    rcases hocr with h | h <;> simp [ocrStringOf, h]
  have htext : contentTextOf c = [] := by
    simp [contentTextOf, hd, rawTextForScoring, hocr0, lowerL]
  have hzero : scoreChunk (queryWords q) c = 0 := by
    rw [scoreChunk, List.countP_eq_zero]
    intro w hw
    have hne : w ≠ [] :=
      pySplit_mem_ne_nil _ _ (List.mem_dedup.mp hw)
    rw [htext, isSubL_nil_of_ne_nil w hne]
    simp
  refine ⟨hzero, fun hmem => ?_⟩
  have := mem_getRelevantChunks_pos_score q cs k c hmem
  omega

theorem ocrless_image_chunks_unretrievable_witness :
    scoreChunk (queryWords "image")
        ⟨some "pic.png", some (.rval (.vdict [("image_base64", .vstr "xyz")]))⟩ = 0 ∧
    (⟨some "pic.png", some (.rval (.vdict [("image_base64", .vstr "xyz")]))⟩ : Chunk) ∉
      getRelevantChunks "image"
        [⟨some "pic.png", some (.rval (.vdict [("image_base64", .vstr "xyz")]))⟩] 10 :=
  ocrless_image_chunks_unretrievable "image" _ 10 _ [("image_base64", .vstr "xyz")]
    rfl (Or.inl rfl)

/-! ### Claim C3 (corrected): canonical text of a record lacking OCR text -/

/-- Counterexample to claim C3 as stated: on a structured record lacking an
OCR-text field, the canonical-text extraction used for *scoring*
(`_get_relevant_chunks`, lines 77–82) returns the empty string, not the
fixed placeholder — only the spec's §4.2 normalizer (and the assembler's
inlined copy) produces the placeholder there. -/
theorem canonical_text_missing_ocr_counterexample :
    rawTextForScoring (.vdict [("image_base64", .vstr "img")]) = "" ∧
    ("" : String) ≠ imagePlaceholder ∧
    specCanonicalText (.vdict [("image_base64", .vstr "img")]) = imagePlaceholder := by
  refine ⟨rfl, by decide, rfl⟩

/-- Claim C3 amended: for content that is a structured record (or a string
that parses to one) lacking an OCR-text field, the *context-assembly*
extraction returns the fixed placeholder, while the *ranker's* extraction
returns the empty string (so the record scores 0; there is no single shared
canonical-text function in the code). -/
theorem canonical_text_missing_ocr_amended (r : RawContent) (d : List (String × PyVal))
    (hd : decodeContent r = .vdict d) (hocr : dictFind d "ocr_text" = none) :
    ctxText (decodeContent r) = imagePlaceholder ∧
    rawTextForScoring (decodeContent r) = "" := by
  rw [hd]
  have h0 : ocrStringOf d = "" := by simp [ocrStringOf, hocr]
  exact ⟨by simp [ctxText, h0], by simp [rawTextForScoring, h0]⟩

theorem canonical_text_missing_ocr_amended_witness :
    ctxText (decodeContent (.rstr "\x7b\x7d" (some (.vdict [])))) = imagePlaceholder ∧
    rawTextForScoring (decodeContent (.rstr "\x7b\x7d" (some (.vdict [])))) = "" :=
  canonical_text_missing_ocr_amended _ [] rfl rfl

/-! ### Claim C6 (corrected): backend-failure classification -/

/-- Counterexample to claim C6 as stated: the claim says a failure whose
text contains `"403"` yields the auth/permission message, but an error text
containing both `"403"` and `"not found"` is classified by the
first-checked model-unavailable branch instead. -/
theorem classify_error_counterexample :
    containsSubStr "403: model not found" "403" = true ∧
    classifyApiError "403: model not found" = modelErrorMsg "403: model not found" ∧
    classifyApiError "403: model not found" ≠ apiKeyErrorMsg "403: model not found" := by
  refine ⟨rfl, rfl, by decide⟩

/-- Claim C6 amended: on every backend failure `query` returns a string;
classification checks the model-unavailable test (`"404"`/`"not found"`)
first, so a failure containing `"403"` (or `"permission"`) yields the
auth/permission message only when the model-unavailable test does not
match; any other failure yields the generic API-error message; the auth
and model-unavailable messages are distinct for every error text. -/
theorem classify_error_amended (m : String) :
    (matches404 m = true → classifyApiError m = modelErrorMsg m) ∧
    (matches404 m = false → matches403 m = true → classifyApiError m = apiKeyErrorMsg m) ∧
    (matches404 m = false → matches403 m = false → classifyApiError m = apiErrorMsg m) ∧
    modelErrorMsg m ≠ apiKeyErrorMsg m ∧
    (∀ (chunks : List Chunk) (q : String) (backend : String → Except String GenResponse),
      (∀ prompt, backend prompt = Except.error m) →
      queryRun chunks backend q = noInfoMsg ∨ queryRun chunks backend q = classifyApiError m) := by
  refine ⟨fun h4 => by simp [classifyApiError, h4],
    fun h4 h3 => by simp [classifyApiError, h4, h3],
    fun h4 h3 => by simp [classifyApiError, h4, h3], ?_, ?_⟩
  · intro h
    have hl : (modelErrorMsg m).length = (apiKeyErrorMsg m).length := congrArg String.length h
    rw [modelErrorMsg, apiKeyErrorMsg] at hl
    simp only [String.length_append] at hl
    have h1 : ("Model error: The Gemini model is not available. Please check your API key and model configuration. Error: " : String).length = 106 := rfl
    have h2 : ("API key error: Please check your GEMINI_API_KEY in the .env file. Error: " : String).length = 73 := rfl
    omega
  · intro chunks q backend hb
    by_cases hempty : (getRelevantChunks q chunks 10).isEmpty
    · left
      simp [queryRun, hempty]
    · right
      simp [queryRun, hempty, hb]

theorem classify_error_amended_witness :
    matches404 "404" = true ∧ classifyApiError "404" = modelErrorMsg "404" ∧
    matches404 "a 403" = false ∧ matches403 "a 403" = true ∧
    classifyApiError "a 403" = apiKeyErrorMsg "a 403" :=
  ⟨rfl, (classify_error_amended "404").1 rfl, rfl, rfl,
    (classify_error_amended "a 403").2.1 rfl rfl⟩

/-! ### Claim C8 (corrected): context assembly -/

theorem prepareContextParts_eq_map (chunks : List Chunk) :
    prepareContextParts chunks = chunks.map (fun c =>
      "Document: " ++ c.filename.getD "Unknown" ++ "\nContent:\n" ++ ctxTextOf c ++ "\n") := by
  induction chunks with
  | nil => rfl
  | cons c rest ih => simp [prepareContextParts, ih]

/-- Counterexample to claim C8 as stated: a chunk whose content is the
plain empty string has empty canonical text, but the assembler renders it
as-is — the placeholder substitution promised by the claim happens only in
the structured-record branch.  (`specBlock` is the block the claim
describes.) -/
theorem assemble_placeholder_counterexample :
    prepareContext [⟨some "a.txt", some (.rstr "" none)⟩] = "Document: a.txt\nContent:\n\n" ∧
    specBlock ⟨some "a.txt", some (.rstr "" none)⟩ =
      "Document: a.txt\nContent:\n" ++ imagePlaceholder ++ "\n" ∧
    prepareContext [⟨some "a.txt", some (.rstr "" none)⟩] ≠
      String.intercalate "\n---\n"
        ([(⟨some "a.txt", some (.rstr "" none)⟩ : Chunk)].map specBlock) := by
  refine ⟨rfl, rfl, by decide⟩

/-- Claim C8 amended: the assembler renders one block per chunk in input
order — `"Document: "` plus the owning filename (or `"Unknown"` when
absent), then the chunk's extracted text — and joins the blocks with the
fixed separator line `"\n---\n"`; the non-text placeholder is substituted
exactly in the structured-record branch, when the record's OCR text is
missing or empty, while a plain-string chunk's text is rendered as-is even
when it is the empty string. -/
theorem assemble_blocks_amended (chunks : List Chunk) :
    prepareContext chunks =
      String.intercalate "\n---\n" (chunks.map (fun c =>
        "Document: " ++ c.filename.getD "Unknown" ++ "\nContent:\n" ++ ctxTextOf c ++ "\n")) ∧
    (∀ c : Chunk, ∀ d, decodeContent (contentOf c) = .vdict d → ocrStringOf d = "" →
      ctxTextOf c = imagePlaceholder) ∧
    (∀ c : Chunk, ∀ d, decodeContent (contentOf c) = .vdict d → ocrStringOf d ≠ "" →
      ctxTextOf c = ocrStringOf d) ∧
    (∀ c : Chunk, ∀ s, decodeContent (contentOf c) = .vstr s → ctxTextOf c = s) := by
  refine ⟨by rw [prepareContext, prepareContextParts_eq_map], ?_, ?_, ?_⟩
  · intro c d hd h0
    simp [ctxTextOf, hd, ctxText, h0]
  · intro c d hd h0
    simp [ctxTextOf, hd, ctxText, h0]
  · intro c s hs
    simp [ctxTextOf, hs, ctxText]

theorem assemble_blocks_amended_witness :
    ctxTextOf ⟨some "p.png", some (.rval (.vdict [("image_base64", .vstr "z")]))⟩ =
      imagePlaceholder ∧
    ctxTextOf ⟨some "a.txt", some (.rstr "plain text" none)⟩ = "plain text" :=
  ⟨(assemble_blocks_amended []).2.1 _ [("image_base64", .vstr "z")] rfl rfl,
    (assemble_blocks_amended []).2.2.2 _ "plain text" rfl⟩

/-! ### The segmenter: boundary search and loop lemmas -/

theorem rfindWin_sound (t : List Char) (s : Nat) :
    ∀ n i, rfindWin t s n = some i →
      s ≤ i ∧ i < s + n ∧ isPunctAt t i = true ∧
      ∀ j, i < j → j < s + n → isPunctAt t j = false := by
  intro n
  induction n with
  | zero => intro i h; cases h
  | succ n ih =>
    intro i h
    simp only [rfindWin] at h
    by_cases hp : isPunctAt t (s + n) = true
    · rw [if_pos hp] at h
      injection h with h
      subst h
      refine ⟨Nat.le_add_right s n, by omega, hp, ?_⟩
      intro j hj1 hj2
      exact absurd hj2 (by omega)
    · rw [if_neg hp] at h
      obtain ⟨h1, h2, h3, h4⟩ := ih i h
      refine ⟨h1, by omega, h3, ?_⟩
      intro j hj1 hj2
      by_cases hj : j = s + n
      · subst hj
        exact Bool.eq_false_iff.mpr hp
      · exact h4 j hj1 (by omega)

theorem rfindWin_complete (t : List Char) (s : Nat) :
    ∀ n i, s ≤ i → i < s + n → isPunctAt t i = true →
      ∃ i2, rfindWin t s n = some i2 ∧ i ≤ i2 := by
  intro n
  induction n with
  | zero => intro i h1 h2 _; exact absurd h2 (by omega)
  | succ n ih =>
    intro i h1 h2 h3
    simp only [rfindWin]
    by_cases hp : isPunctAt t (s + n) = true
    · rw [if_pos hp]
      exact ⟨s + n, rfl, by omega⟩
    · rw [if_neg hp]
      have hne : i ≠ s + n := fun h => hp (h ▸ h3)
      exact ih i h1 (by omega) h3

theorem chunkEnd_final (t : List Char) (cs s : Nat) (h : t.length ≤ s + cs) :
    chunkEnd t cs s = s + cs := by
  rw [chunkEnd, if_neg (by omega)]

theorem chunkEnd_no_punct (t : List Char) (cs s : Nat)
    (h : ∀ i, s < i → i < s + cs → isPunctAt t i = false) :
    chunkEnd t cs s = s + cs := by
  rw [chunkEnd]
  by_cases hlen : s + cs < t.length
  · rw [if_pos hlen]
    cases hr : rfindWin t s cs with
    | none => rfl
    | some i =>
      obtain ⟨h1, h2, h3, _⟩ := rfindWin_sound t s cs i hr
      by_cases hsi : s < i
      · rw [h i hsi h2] at h3
        cases h3
      · show (if s < i then i + 1 else s + cs) = s + cs
        rw [if_neg hsi]
  · rw [if_neg hlen]

theorem chunkEnd_punct (t : List Char) (cs s i : Nat)
    (hlen : s + cs < t.length) (hsi : s < i) (hiw : i < s + cs)
    (hp : isPunctAt t i = true)
    (hafter : ∀ j, i < j → j < s + cs → isPunctAt t j = false) :
    chunkEnd t cs s = i + 1 := by
  obtain ⟨i2, hr, hle⟩ := rfindWin_complete t s cs i (by omega) hiw hp
  have hi2 : i2 = i := by
    obtain ⟨g1, g2, g3, _⟩ := rfindWin_sound t s cs i2 hr
    by_contra hne
    rw [hafter i2 (by omega) g2] at g3
    cases g3
  subst hi2
  rw [chunkEnd, if_pos hlen, hr]
  simp [hsi]

/-- With fuel at least `len(text) - start`, the fuelled loop completes and
agrees with the loop (used both for the termination claim and to evaluate
the loop on concrete inputs). -/
theorem splitLoopF_eq_splitLoop (t : List Char) (cs ov : Nat) :
    ∀ fuel start idx, t.length - start ≤ fuel →
      splitLoopF t cs ov fuel start idx = some (splitLoop t cs ov start idx) := by
  intro fuel
  induction fuel with
  | zero =>
    intro start idx h
    have hns : ¬ start < t.length := by omega
    rw [splitLoop]
    simp only [splitLoopF]
    rw [if_neg hns, if_neg hns]
  | succ fuel ih =>
    intro start idx h
    rw [splitLoop]
    simp only [splitLoopF]
    by_cases hs : start < t.length
    · rw [if_pos hs, if_pos hs]
      have hnext : start + 1 ≤ max (start + 1) (chunkEnd t cs start - ov) :=
        Nat.le_max_left _ _
      by_cases hct : (pyStrip (slice t start (chunkEnd t cs start))).isEmpty
      · rw [if_pos hct, if_pos hct]
        exact ih _ idx (by omega)
      · rw [if_neg hct, if_neg hct]
        rw [ih _ (idx + 1) (by omega)]
        rfl
    · rw [if_neg hs, if_neg hs]

/-- Every chunk the fuelled loop emits records `chunkEnd` of its start. -/
theorem splitLoopF_meta (t : List Char) (cs ov : Nat) :
    ∀ fuel start idx res, splitLoopF t cs ov fuel start idx = some res →
      ∀ c ∈ res, ∀ m, c.metadata = some m →
        m.endPos = chunkEnd t cs m.startPos := by
  intro fuel
  induction fuel with
  | zero =>
    intro start idx res h
    simp only [splitLoopF] at h
    by_cases hs : start < t.length
    · rw [if_pos hs] at h; cases h
    · rw [if_neg hs] at h
      injection h with h
      subst h
      intro c hc
      cases hc
  | succ fuel ih =>
    intro start idx res h
    simp only [splitLoopF] at h
    by_cases hs : start < t.length
    · rw [if_pos hs] at h
      by_cases hct : (pyStrip (slice t start (chunkEnd t cs start))).isEmpty
      · rw [if_pos hct] at h
        exact ih _ _ _ h
      · rw [if_neg hct] at h
        obtain ⟨rest, hrest, hres⟩ := Option.map_eq_some'.mp h
        subst hres
        intro c hc m hm
        rcases List.mem_cons.mp hc with hc | hc
        · subst hc
          simp only at hm
          injection hm with hm
          subst hm
          rfl
        · exact ih _ _ _ hrest c hc m hm
    · rw [if_neg hs] at h
      injection h with h
      subst h
      intro c hc
      cases hc

/-- Every chunk the loop emits records `chunkEnd` of its start. -/
theorem splitLoop_meta (t : List Char) (cs ov start idx : Nat)
    (c : ChunkRec) (hc : c ∈ splitLoop t cs ov start idx)
    (m : ChunkMeta) (hm : c.metadata = some m) :
    m.endPos = chunkEnd t cs m.startPos :=
  splitLoopF_meta t cs ov (t.length - start) start idx _
    (splitLoopF_eq_splitLoop t cs ov (t.length - start) start idx (Nat.le_refl _))
    c hc m hm

/-! ### Claim C4: the chunk-boundary rule -/

/-- Claim C4: every chunk the segmenter emits with recorded positions obeys
the boundary rule on the cleaned text: (i) for a final window
(`len(text) ≤ start + chunk_size`) the end is exactly `start + chunk_size`;
(ii) likewise when no boundary character (`.`, `!`, `?`, newline) occurs
strictly after `start` inside the window `[start, start+chunk_size)`;
(iii) in an interior window, the rightmost boundary character strictly
after `start` ends the chunk one character past it. -/
theorem segment_chunk_end_rule (text : List Char) (chunkSize overlap : Nat)
    (c : ChunkRec) (m : ChunkMeta)
    (hc : c ∈ splitText text chunkSize overlap) (hm : c.metadata = some m) :
    ((cleanText text).length ≤ m.startPos + chunkSize →
      m.endPos = m.startPos + chunkSize) ∧
    ((∀ i, m.startPos < i → i < m.startPos + chunkSize →
        isPunctAt (cleanText text) i = false) →
      m.endPos = m.startPos + chunkSize) ∧
    (∀ i, m.startPos < i → i < m.startPos + chunkSize →
      m.startPos + chunkSize < (cleanText text).length →
      isPunctAt (cleanText text) i = true →
      (∀ j, i < j → j < m.startPos + chunkSize →
        isPunctAt (cleanText text) j = false) →
      m.endPos = i + 1) := by
  have hloop : c ∈ splitLoop (cleanText text) chunkSize overlap 0 0 := by
    simp only [splitText] at hc
    split at hc
    · rw [List.mem_singleton.mp hc] at hm
      cases hm
    · split at hc
      · rw [List.mem_singleton.mp hc] at hm
        cases hm
      · exact hc
  have hend := splitLoop_meta (cleanText text) chunkSize overlap 0 0 c hloop m hm
  refine ⟨fun h => ?_, fun h => ?_, fun i h1 h2 h3 h4 h5 => ?_⟩
  · rw [hend, chunkEnd_final _ _ _ h]
  · rw [hend, chunkEnd_no_punct _ _ _ h]
  · rw [hend, chunkEnd_punct _ _ _ i h3 h1 h2 h4 h5]

theorem segment_chunk_end_rule_witness :
    (⟨['a', '.'], some ⟨0, 0, 5⟩⟩ : ChunkRec) ∈ splitText ['a', '.'] 5 0 ∧
    (⟨0, 0, 5⟩ : ChunkMeta).endPos = (⟨0, 0, 5⟩ : ChunkMeta).startPos + 5 := by
  have h2 : splitLoopF ['a', '.'] 5 0 2 0 0 =
      some [⟨['a', '.'], some ⟨0, 0, 5⟩⟩] := by decide
  rw [splitLoopF_eq_splitLoop ['a', '.'] 5 0 2 0 0 (by decide)] at h2
  have h3 : splitLoop ['a', '.'] 5 0 0 0 = [⟨['a', '.'], some ⟨0, 0, 5⟩⟩] :=
    Option.some.inj h2
  have hsplit : splitText ['a', '.'] 5 0 = [⟨['a', '.'], some ⟨0, 0, 5⟩⟩] := by
    simp only [splitText]
    rw [if_neg (by decide : ¬ (['a', '.'].all pyIsSpace = true))]
    have hclean : cleanText ['a', '.'] = ['a', '.'] := by decide
    rw [hclean, h3]
    rfl
  have hmem : (⟨['a', '.'], some ⟨0, 0, 5⟩⟩ : ChunkRec) ∈ splitText ['a', '.'] 5 0 := by
    rw [hsplit]
    exact List.mem_singleton.mpr rfl
  exact ⟨hmem,
    (segment_chunk_end_rule ['a', '.'] 5 0 _ _ hmem rfl).1 (by decide)⟩

/-! ### Claim C9: the segmenter terminates -/

/-- Claim C9: the segmenter's loop makes strict forward progress — the next
start `max(start+1, end-overlap)` strictly exceeds `start` for all values,
including `overlap ≥ chunk_size` and collapsed windows — and therefore
terminates: with fuel `len(text) - start` the fuelled loop never runs out,
completing with the same result as the loop. -/
theorem split_text_terminates :
    (∀ start e overlap : Nat, start < max (start + 1) (e - overlap)) ∧
    (∀ (t : List Char) (chunkSize overlap fuel start idx : Nat),
      t.length - start ≤ fuel →
      splitLoopF t chunkSize overlap fuel start idx =
        some (splitLoop t chunkSize overlap start idx)) := by
  constructor
  · intro s e ov
    have := Nat.le_max_left (s + 1) (e - ov)
    omega
  · intro t cs ov fuel start idx h
    exact splitLoopF_eq_splitLoop t cs ov fuel start idx h

theorem split_text_terminates_witness :
    (0 : Nat) < max (0 + 1) (5 - 2) ∧
    splitLoopF ['a', '.'] 5 0 2 0 0 = some (splitLoop ['a', '.'] 5 0 0 0) :=
  ⟨split_text_terminates.1 0 5 2,
    split_text_terminates.2 ['a', '.'] 5 0 2 0 0 (by decide)⟩

end CoastalRag
